import Mathlib

/-!
Verification of the nutrition-calculation program (`nutrition.py`, `menu.py`,
`main.py`).  The Python code is shallowly embedded: floats become exact
rationals (`ℚ`), raising code returns `Except String`, Python dicts become
insertion-ordered association lists, and the one regular expression used by
the quantity parser is modelled by an explicit enumeration of its
backtracking candidates in priority order.
-/

attribute [local semireducible] Rat.add Rat.mul Rat.inv Rat.sub Rat.ofScientific

/-! ### Character and string primitives

Python `str.strip`, `str.lower` and `str.split` restricted to ASCII
(the reference data and menus are ASCII).
-/

/-- ASCII whitespace, as stripped by Python `str.strip` / split by `str.split`. -/
def isWs (c : Char) : Bool :=
  c == ' ' || c == '\t' || c == '\n' || c == '\r' || c == '\x0b' || c == '\x0c'

/-- ASCII lower-casing of one character, as done by Python `str.lower`:
code points 65-90 (`A`-`Z`) move up by 32, everything else is unchanged. -/
def toLowerChar (c : Char) : Char :=
  if 65 ≤ c.toNat ∧ c.toNat ≤ 90 then Char.ofNat (c.toNat + 32) else c

/-- Python `str.lower` on a character list. -/
def lowerList (l : List Char) : List Char := l.map toLowerChar

/-- Python `str.strip` (no argument): drop whitespace from both ends. -/
def trimList (l : List Char) : List Char :=
  ((l.dropWhile isWs).reverse.dropWhile isWs).reverse

/-- Python `str.split` (no argument): split on runs of whitespace, no
empty words.  Auxiliary accumulator holds the current word reversed. -/
def splitWsAux : List Char → List Char → List (List Char)
  | [], acc => if acc.isEmpty then [] else [acc.reverse]
  | c :: rest, acc =>
    if isWs c then
      if acc.isEmpty then splitWsAux rest [] else acc.reverse :: splitWsAux rest []
    else splitWsAux rest (c :: acc)

/-- Python `str.split` (no argument). -/
def splitWs (l : List Char) : List (List Char) := splitWsAux l []

/-- Keep the first occurrence of each element (models building a Python `set`,
together with membership tests). -/
def dedupFirstAux : List (List Char) → List (List Char) → List (List Char)
  | [], _ => []
  | w :: rest, seen =>
    if w ∈ seen then dedupFirstAux rest seen else w :: dedupFirstAux rest (w :: seen)

/-- Distinct words of a list, first occurrences kept. -/
def dedupFirst (l : List (List Char)) : List (List Char) := dedupFirstAux l []

/-- Numeric value of a digit string. -/
def natOfDigits (l : List Char) : Nat :=
  l.foldl (fun a c => a * 10 + (c.toNat - 48)) 0

/-- Exact value of Python `float("<intD>.<fracD>")` for plain decimal digits. -/
def ratOfDigits (intD fracD : List Char) : ℚ :=
  (natOfDigits intD : ℚ) + (natOfDigits fracD : ℚ) / (10 : ℚ) ^ fracD.length

/-! ### The quantity regex

`re.match(r"^(\d+(?:\.\d+)?)\s*(g|cup)?\s*(.+)$", text)` is modelled by
listing every candidate split in the exact priority order Python's
backtracking engine tries them; the overall match is the first candidate.
`parse_quantity` strips its input first, so the input never ends in a
newline and `$` is simply end-of-input; `.` never matches a newline.
-/

/-- Candidates of `(?:\.\d+)?` at the given position, in priority order:
the fractional digit run is greedy and gives back digits one at a time;
the empty alternative of `?` is taken by the caller.  Returns
(fraction digits, rest of input). -/
def fracSplits (cs : List Char) : List (List Char × List Char) :=
  if cs.take 1 = ['.'] then
    let rest := cs.drop 1
    let ds := rest.takeWhile (fun c => c.isDigit)
    (List.range ds.length).map (fun i =>
      let j := ds.length - i
      (ds.take j, rest.drop j))
  else []

/-- Candidates of `(\d+(?:\.\d+)?)` at the start of the input, in priority
order: the integer digit run is greedy and gives back digits one at a time
(never below one digit); for each choice the fraction is tried greedily,
then omitted.  Returns (numeric value of group 1, rest of input). -/
def numSplits (cs : List Char) : List (ℚ × List Char) :=
  let ds := cs.takeWhile (fun c => c.isDigit)
  (List.range ds.length).flatMap (fun i =>
    let k := ds.length - i
    let intD := ds.take k
    let rest := cs.drop k
    (fracSplits rest).map (fun p => (ratOfDigits intD p.1, p.2)) ++
      [(ratOfDigits intD [], rest)])

/-- Candidates of `\s*`, in priority order: greedy, giving back one
whitespace character at a time. -/
def wsSplits (cs : List Char) : List (List Char) :=
  let m := (cs.takeWhile isWs).length
  (List.range (m + 1)).map (fun i => cs.drop (m - i))

/-- Candidates of `(g|cup)?`, in priority order: alternative `g`, then
`cup`, then the empty alternative.  The two alternatives start with
different letters, so at most one can apply. -/
def unitSplits (cs : List Char) : List (Option (List Char) × List Char) :=
  if cs.take 1 = ['g'] then [(some ['g'], cs.drop 1), (none, cs)]
  else if cs.take 3 = ['c', 'u', 'p'] then [(some ['c', 'u', 'p'], cs.drop 3), (none, cs)]
  else [(none, cs)]

/-- All candidate matches of the full pattern against the whole (stripped)
input, in backtracking priority order.  `(.+)$` accepts exactly the
nonempty newline-free remainders. -/
def regexSplits (cs : List Char) : List (ℚ × Option (List Char) × List Char) :=
  (numSplits cs).flatMap (fun p =>
    (wsSplits p.2).flatMap (fun r2 =>
      (unitSplits r2).flatMap (fun u =>
        (wsSplits u.2).flatMap (fun r4 =>
          if r4 ≠ [] ∧ ¬ r4.contains '\n' then [(p.1, u.1, r4)] else []))))

/-- Body of `parse_quantity` after the `text = text.strip().lower()`
normalisation: the `"half "` special case, then the regex, then the
`(1, None, text)` fallback. -/
def parseNormed (t : List Char) : ℚ × Option String × String :=
  if t.take 5 = ['h', 'a', 'l', 'f', ' '] then ((1 : ℚ) / 2, none, String.mk (t.drop 5))
  else
    match (regexSplits t).head? with
    | some (q, u, r) => (q, u.map String.mk, String.mk r)
    | none => (1, none, String.mk t)

/-- Python `parse_quantity` from `nutrition.py`:
parse `'110g chicken' -> (110, 'g', 'chicken')`. -/
def parse_quantity (s : String) : ℚ × Option String × String :=
  parseNormed (lowerList (trimList s.data))

/-! ### Nutrient values

The `Nutrients` dataclass of `nutrition.py`: carbs, protein, fat and
calories, with fieldwise addition, scalar multiplication and division.
Floats are modelled as exact rationals; `ZeroDivisionError` is modelled
as an `Except.error` at the one place Python can raise it (`avg`).
-/

/-- The `Nutrients` dataclass: carbs, protein, fat, and calories. -/
structure Nutrients where
  c : ℚ := 0
  p : ℚ := 0
  f : ℚ := 0
  cal : ℚ := 0
deriving DecidableEq, Repr

/-- Fieldwise addition (`Nutrients.__add__`). -/
instance : Add Nutrients :=
  ⟨fun x y => ⟨x.c + y.c, x.p + y.p, x.f + y.f, x.cal + y.cal⟩⟩

/-- Scalar multiplication (`Nutrients.__mul__`). -/
instance : HMul Nutrients ℚ Nutrients :=
  ⟨fun x n => ⟨x.c * n, x.p * n, x.f * n, x.cal * n⟩⟩

/-- Fieldwise division (`Nutrients.__truediv__`); its divisor is checked
against zero by the caller (`avg`), where Python would raise. -/
def Nutrients.div (x : Nutrients) (n : ℚ) : Nutrients :=
  ⟨x.c / n, x.p / n, x.f / n, x.cal / n⟩

/-- `Nutrients.avg`: sum the list with a loop starting from the zero value,
then divide by the length; dividing by zero on an empty list is Python's
`ZeroDivisionError`. -/
def Nutrients.avg (items : List Nutrients) : Except String Nutrients :=
  let total := items.foldl (· + ·) ⟨0, 0, 0, 0⟩
  if items.length = 0 then .error "ZeroDivisionError: division by zero"
  else .ok (total.div items.length)

/-- The `KCAL_PER_G` table of `nutrition.py`; its only keys are
`"c"`, `"p"` and `"f"` and those are the only keys ever looked up. -/
def KCAL_PER_G (k : String) : ℚ :=
  if k = "c" then 4 else if k = "p" then 4 else if k = "f" then 9 else 0

/-! ### Except-valued loops

Python `for` loops and list comprehensions over raising code, embedded as
structural recursions over `Except`. -/

/-- A list comprehension whose element expression may raise: stop at the
first error. -/
def mapExcept (f : α → Except String β) : List α → Except String (List β)
  | [] => .ok []
  | a :: l => do pure ((← f a) :: (← mapExcept f l))

/-- A `for` loop updating an accumulator where each step may raise. -/
def foldlExcept (f : σ → α → Except String σ) (init : σ) : List α → Except String σ
  | [] => .ok init
  | a :: l =>
    match f init a with
    | .error e => .error e
    | .ok s => foldlExcept f s l

/-- The value of an `Except`, forgetting which error was raised. -/
def exOk (e : Except String α) : Option α :=
  match e with
  | .ok a => some a
  | .error _ => none

/-! ### The nutrition database

`NutritionDB` of `nutrition.py`.  `self.items` is a Python dict keyed by
lower-cased name: an insertion-ordered association list whose assignment
overwrites the value at the key's existing position and otherwise appends.
-/

/-- One value of `NutritionDB.items`: per-serving macros, the reference
serving, and per-serving calories. -/
structure FoodRecord where
  c : ℚ
  p : ℚ
  f : ℚ
  serving_amt : ℚ
  serving_unit : String
  cal : ℚ
deriving DecidableEq, Repr

/-- The `NutritionDB` class: its `items` dict. -/
structure NutritionDB where
  items : List (String × FoodRecord)
deriving DecidableEq, Repr

/-- Reading `self.items[name]` (first entry with the key). -/
def NutritionDB.lookupName (db : NutritionDB) (name : String) : Option FoodRecord :=
  (db.items.find? (fun e => e.1 = name)).map (fun e => e.2)

/-- Python dict assignment `self.items[name] = rec`: overwrite in place,
or append a new key at the end. -/
def pyInsert (items : List (String × FoodRecord)) (name : String) (rec : FoodRecord) :
    List (String × FoodRecord) :=
  match items with
  | [] => [(name, rec)]
  | e :: rest => if e.1 = name then (name, rec) :: rest else e :: pyInsert rest name rec

/-- Word-overlap score of a stored name against the query's word set:
`|words(text) ∩ words(name)| / |words(name)|`, and `0` for a wordless name. -/
def overlapScore (tw : List (List Char)) (name : String) : ℚ :=
  let nw := dedupFirst (splitWs name.data)
  if nw.isEmpty then 0
  else ((nw.filter (fun w => w ∈ tw)).length : ℚ) / (nw.length : ℚ)

/-- The scan loop of `NutritionDB.match`: track the best name and strictly
best score over the dict's keys in insertion order, starting from
`(None, 0)`. -/
def bestLoop (items : List (String × FoodRecord)) (tw : List (List Char)) :
    Option String × ℚ :=
  items.foldl
    (fun acc e =>
      let score := overlapScore tw e.1
      if score > acc.2 then (some e.1, score) else acc)
    (none, 0)

/-- `NutritionDB.match` (named `matchFood` because `match` is reserved in
Lean): normalise with `text.lower().strip()`, return an exact key hit
immediately, otherwise the best word-overlap name provided its score
exceeds `0.5`. -/
def NutritionDB.matchFood (db : NutritionDB) (text : String) : Option String :=
  let t := String.mk (trimList (lowerList text.data))
  if t ∈ db.items.map (fun e => e.1) then some t
  else
    let tw := dedupFirst (splitWs t.data)
    let best := bestLoop db.items tw
    if best.2 > (1 : ℚ) / 2 then best.1 else none

/-- Float division as Python performs it inside `NutritionDB.get`:
raises `ZeroDivisionError` on a zero divisor. -/
def divPy (a b : ℚ) : Except String ℚ :=
  if b = 0 then .error "ZeroDivisionError: float division by zero" else .ok (a / b)

/-- `NutritionDB.get`: parse the quantity, fuzzy-match the remainder, fail
with `Item not found` on no match, pick the scale ratio through the
`if`/`elif` chain (the unit-mismatch `else` branch logs a warning and uses
the raw quantity), and scale every field of the record. -/
def NutritionDB.get (db : NutritionDB) (menu_text : String) : Except String Nutrients :=
  let q := parse_quantity menu_text
  let qty := q.1
  let unit := q.2.1
  let item_text := q.2.2
  match db.matchFood item_text with
  | none => .error ("Item not found: " ++ menu_text)
  | some name =>
    match db.lookupName name with
    | none => .error ("KeyError: " ++ name)
    | some item => do
      let r ←
        if unit = some "g" ∧ item.serving_unit = "g" then divPy qty item.serving_amt
        else if unit = some item.serving_unit then divPy qty item.serving_amt
        else if unit = none then divPy qty item.serving_amt
        else .ok qty
      pure ⟨item.c * r, item.p * r, item.f * r, item.cal * r⟩

/-- `NutritionDB.exists` (named `existsItem` to avoid clashing with the
`Exists` binder): parse the quantity and test whether the remainder
matches. -/
def NutritionDB.existsItem (db : NutritionDB) (menu_text : String) : Bool :=
  (db.matchFood (parse_quantity menu_text).2.2).isSome

/-- Decidable equality of `Except` results, for evaluating the embedding
on concrete inputs. -/
instance {ε α : Type} [DecidableEq ε] [DecidableEq α] : DecidableEq (Except ε α)
  | .error e, .error f => decidable_of_iff (e = f) (by simp)
  | .error _, .ok _ => .isFalse (fun h => by cases h)
  | .ok _, .error _ => .isFalse (fun h => by cases h)
  | .ok a, .ok b => decidable_of_iff (a = b) (by simp)

/-! ### The menu model

The `Menu` class of `menu.py`, as the aggregator consumes it.  The YAML
reading is elided: claims about the aggregator take a `Menu` value as
given.  `carbs_per_day` (a dict keyed by day) is a partial map; Python
truthiness of `menu.carbs_item` and of the looked-up gram amount is made
explicit at the use site.
-/

/-- The `Menu` object: `extra` adjustment, per-day carbs, fixed item-groups,
and `(items, n, group_id)` option triples with their `choose_groups` dict
as an insertion-ordered `(group_id, n)` list. -/
structure Menu where
  extra : Nutrients
  carbs_per_day : String → Option ℚ
  carbs_item : Option String
  fixed : List (List String)
  options : List (List String × Nat × Nat)
  choose_groups : List (Nat × Nat)

/-- `Menu.all_items`: every food text across fixed groups, option groups,
and the carbs item when it is truthy (present and nonempty). -/
def Menu.all_items (m : Menu) : List String :=
  m.fixed.flatten ++ (m.options.map (fun o => o.1)).flatten ++
    (match m.carbs_item with
     | some i => if i = "" then [] else [i]
     | none => [])

/-! ### The daily aggregator

`main.py`: `get_nutrients`, `check_menu` and `calculate`, with each loop
of `calculate` as a named stage.
-/

/-- `get_nutrients`: resolve every item of a group, then average
(`Nutrients.avg` raises on an empty group). -/
def get_nutrients (db : NutritionDB) (items : List String) : Except String Nutrients := do
  Nutrients.avg (← mapExcept (fun i => db.get i) items)

/-- The fixed-items loop of `calculate`: add each fixed group's averaged
value to the running total. -/
def fixedTotal (db : NutritionDB) (fixed : List (List String)) (t0 : Nutrients) :
    Except String Nutrients :=
  foldlExcept (fun t g => (get_nutrients db g).map (fun v => t + v)) t0 fixed

/-- One `grouped.setdefault(id, (n, []))[1].append(v)` step: append the
value to the existing entry for the group id (keeping its `n` and its
position), or append a fresh `(id, n, [v])` entry at the end. -/
def insertGrouped (acc : List (Nat × Nat × List α)) (x : Nat × Nat × α) :
    List (Nat × Nat × List α) :=
  match acc with
  | [] => [(x.1, x.2.1, [x.2.2])]
  | e :: rest =>
    if e.1 = x.1 then (e.1, e.2.1, e.2.2 ++ [x.2.2]) :: rest
    else e :: insertGrouped rest x

/-- The grouping loop of `calculate`: resolve each option group with
`get_nutrients` and file it under its choice-group id in the `grouped`
dict. -/
def buildGrouped (db : NutritionDB) (opts : List (List String × Nat × Nat)) :
    Except String (List (Nat × Nat × List Nutrients)) :=
  foldlExcept
    (fun acc o => (get_nutrients db o.1).map (fun v => insertGrouped acc (o.2.2, o.2.1, v)))
    [] opts

/-- The second options loop of `calculate`: for each grouped entry add
`Nutrients.avg(choices) * n` to the running total. -/
def optionsTotal (grouped : List (Nat × Nat × List Nutrients)) (t0 : Nutrients) :
    Except String Nutrients :=
  foldlExcept (fun t e => (Nutrients.avg e.2.2).map (fun a => t + a * (e.2.1 : ℚ))) t0 grouped

/-- Python `str` of a float with a short decimal expansion (the values the
menu stores are such floats): minimal number of fractional digits, and a
trailing `.0` for integral values. -/
def floatStr (q : ℚ) : String :=
  if q < 0 then "-" ++ floatStrNN (-q)
  else floatStrNN q
where
  /-- Decimal rendering of a nonnegative rational with finite decimal
  expansion (searched up to 400 digits, enough for every double). -/
  floatStrNN (q : ℚ) : String :=
    let k := ((List.range 400).find? (fun k => (q * (10 : ℚ) ^ k).den = 1)).getD 0
    let scaled := (q * (10 : ℚ) ^ k).num.toNat
    let s := toString scaled
    if k = 0 then s ++ ".0"
    else
      let s := String.mk (List.replicate (k + 1 - s.length) '0') ++ s
      String.mk (s.data.take (s.length - k)) ++ "." ++ String.mk (s.data.drop (s.length - k))

/-- The per-day carbs step of `calculate`: when `menu.carbs_item` is truthy
and `menu.carbs_per_day.get(day)` is truthy (present and nonzero), look up
`f"{grams}g {menu.carbs_item}"` and add it to the total. -/
def carbsStep (db : NutritionDB) (menu : Menu) (day : String) (t : Nutrients) :
    Except String Nutrients :=
  match menu.carbs_item with
  | none => .ok t
  | some item =>
    if item = "" then .ok t
    else
      match menu.carbs_per_day day with
      | none => .ok t
      | some grams =>
        if grams = 0 then .ok t
        else (db.get (floatStr grams ++ "g " ++ item)).map (fun v => t + v)

/-- `calculate` up to (excluding) the `extra` step: fixed items, grouped
options, per-day carbs. -/
def preTotal (db : NutritionDB) (menu : Menu) (day : String) : Except String Nutrients := do
  let t ← fixedTotal db menu.fixed ⟨0, 0, 0, 0⟩
  let g ← buildGrouped db menu.options
  let t ← optionsTotal g t
  carbsStep db menu day t

/-- `calculate` from `main.py`: total nutrients for a day; the final step
adds the `extra` block, its calorie figure increased by the macro-derived
calories of its own grams. -/
def calculate (db : NutritionDB) (menu : Menu) (day : String) : Except String Nutrients := do
  let totals ← preTotal db menu day
  let e := menu.extra
  let extra_cal := e.c * KCAL_PER_G "c" + e.p * KCAL_PER_G "p" + e.f * KCAL_PER_G "f"
  pure (totals + Nutrients.mk e.c e.p e.f (e.cal + extra_cal))

/-- `check_menu` from `main.py`: collect every missing menu item and raise
one aggregated error naming them all; then check each choice group has at
least its required number of options. -/
def check_menu (db : NutritionDB) (menu : Menu) : Except String Unit :=
  let missing := menu.all_items.filter (fun item => ¬ db.existsItem item)
  if missing ≠ [] then
    .error ("Not found in nutrition_facts.md:\n" ++
      String.intercalate "\n" (missing.map (fun m => "   - " ++ m)))
  else
    foldlExcept
      (fun _ g =>
        let k := (menu.options.filter (fun o => o.2.2 = g.1)).length
        if k < g.2 then
          .error ("[choose " ++ toString g.2 ++ "] has only " ++ toString k ++ " option(s)")
        else .ok ())
      () menu.choose_groups

/-- The day labels of `main.py`. -/
def DAYS : List String := ["upper", "lower", "rest"]

/-- The computational core of `main`: validate the menu, then compute one
total per day (report formatting and file output elided). -/
def runDays (db : NutritionDB) (menu : Menu) : Except String (List Nutrients) := do
  check_menu db menu
  mapExcept (fun day => calculate db menu day) DAYS

/-! ### Loading the nutrition table

`NutritionDB._load`: rows of a markdown table, header and separator
skipped, blank or pipe-free lines skipped, rows with fewer than 8 columns
skipped silently; duplicate names land on the same dict key.
-/

/-- Python `str.strip` on a `String`. -/
def stripStr (s : String) : String := String.mk (trimList s.data)

/-- Python `str.split("|")`: split at every pipe, keeping empty pieces.
The accumulator holds the current piece reversed. -/
def splitPipeAux : List Char → List Char → List (List Char)
  | [], acc => [acc.reverse]
  | c :: rest, acc =>
    if c = '|' then acc.reverse :: splitPipeAux rest [] else splitPipeAux rest (c :: acc)

/-- Python `line.split("|")` (the separator is ASCII, so byte-level and
character-level splitting agree). -/
def splitPipe (l : List Char) : List (List Char) := splitPipeAux l []

/-- Python `float(s)` on plain decimal literals (optional sign, digits,
optional fraction; exponent, infinity and NaN spellings are not modelled —
the table cells are plain decimals).  Raises `ValueError` otherwise. -/
def parseFloatPy (s : String) : Except String ℚ :=
  let t := trimList s.data
  let sgn : ℚ × List Char :=
    match t with
    | '-' :: r => (-1, r)
    | '+' :: r => (1, r)
    | _ => (1, t)
  let intD := sgn.2.takeWhile (fun c => c.isDigit)
  let rest := sgn.2.drop intD.length
  match rest with
  | [] =>
    if intD.isEmpty then .error ("could not convert string to float: " ++ s)
    else .ok (sgn.1 * (natOfDigits intD : ℚ))
  | '.' :: r2 =>
    let fracD := r2.takeWhile (fun c => c.isDigit)
    if ¬ (r2.drop fracD.length).isEmpty then .error ("could not convert string to float: " ++ s)
    else if intD.isEmpty ∧ fracD.isEmpty then .error ("could not convert string to float: " ++ s)
    else .ok (sgn.1 * ratOfDigits intD fracD)
  | _ => .error ("could not convert string to float: " ++ s)

/-- One iteration of the `_load` loop on one line: `ok none` when the line
is skipped (blank, pipe-free, or fewer than 8 columns), `ok (some (name,
record))` for a data row, `error` when a cell fails float conversion. -/
def rowParse (line : String) : Except String (Option (String × FoodRecord)) :=
  if trimList line.data = [] ∨ ¬ line.data.contains '|' then .ok none
  else
    let cols := (((splitPipe line.data).drop 1).dropLast).map (fun c => stripStr (String.mk c))
    if cols.length ≥ 8 then do
      let name := String.mk (lowerList (cols.getD 1 "").data)
      let c ← parseFloatPy (cols.getD 2 "")
      let p ← parseFloatPy (cols.getD 3 "")
      let f ← parseFloatPy (cols.getD 4 "")
      let amt ← parseFloatPy (cols.getD 5 "")
      let unit := String.mk (lowerList (cols.getD 6 "").data)
      let cal ← parseFloatPy (cols.getD 7 "")
      pure (some (name, ⟨c, p, f, amt, unit, cal⟩))
    else .ok none

/-- One iteration of the `_load` loop acting on the dict. -/
def loadStep (items : List (String × FoodRecord)) (line : String) :
    Except String (List (String × FoodRecord)) :=
  (rowParse line).map (fun r =>
    match r with
    | none => items
    | some (name, rec) => pyInsert items name rec)

/-- `NutritionDB._load` over the lines of the table file: skip the header
and separator, then fold the rows into the `items` dict. -/
def NutritionDB.load (lines : List String) : Except String NutritionDB :=
  (foldlExcept loadStep [] (lines.drop 2)).map NutritionDB.mk

/-! ### Helper lemmas -/

/-- Unfolding fieldwise addition of `Nutrients`. -/
@[simp] theorem Nutrients.add_def (x y : Nutrients) :
    x + y = ⟨x.c + y.c, x.p + y.p, x.f + y.f, x.cal + y.cal⟩ := rfl

/-- Unfolding scalar multiplication of `Nutrients`. -/
@[simp] theorem Nutrients.mul_def (x : Nutrients) (n : ℚ) :
    x * n = ⟨x.c * n, x.p * n, x.f * n, x.cal * n⟩ := rfl

/-- Splitting a `Nutrients` fold-sum into fieldwise sums. -/
theorem foldl_add_fields (l : List Nutrients) (a : Nutrients) :
    l.foldl (· + ·) a =
      ⟨a.c + (l.map (fun x => x.c)).sum, a.p + (l.map (fun x => x.p)).sum,
        a.f + (l.map (fun x => x.f)).sum, a.cal + (l.map (fun x => x.cal)).sum⟩ := by
  induction l generalizing a with
  | nil => simp
  | cons x l ih =>
    rw [List.foldl_cons, ih]
    simp only [List.map_cons, List.sum_cons, Nutrients.add_def, Nutrients.mk.injEq]
    refine ⟨by ring, by ring, by ring, by ring⟩

/-- `Nutrients.avg` of a nonempty list is the fieldwise sum divided by the
length. -/
theorem avg_eq_sum_div (l : List Nutrients) (h : l ≠ []) :
    Nutrients.avg l =
      .ok ⟨(l.map (fun x => x.c)).sum / l.length, (l.map (fun x => x.p)).sum / l.length,
        (l.map (fun x => x.f)).sum / l.length, (l.map (fun x => x.cal)).sum / l.length⟩ := by
  unfold Nutrients.avg
  rw [if_neg (by simpa using h)]
  rw [foldl_add_fields]
  simp [Nutrients.div]

theorem mem_fracSplits {cs : List Char} {x : List Char × List Char} (hx : x ∈ fracSplits cs) :
    ∃ m, x.2 = cs.drop m := by
  unfold fracSplits at hx
  split at hx
  · simp only [List.mem_map, List.mem_range] at hx
    obtain ⟨i, _, rfl⟩ := hx
    refine ⟨((cs.drop 1).takeWhile (fun c => c.isDigit)).length - i + 1, ?_⟩
    simp [List.drop_drop]
  · simp at hx

theorem mem_numSplits {cs : List Char} {x : ℚ × List Char} (hx : x ∈ numSplits cs) :
    ∃ m, x.2 = cs.drop m := by
  unfold numSplits at hx
  simp only [List.mem_flatMap, List.mem_range, List.mem_append, List.mem_map,
    List.mem_singleton] at hx
  obtain ⟨i, _, h | h⟩ := hx
  · obtain ⟨p, hp, rfl⟩ := h
    obtain ⟨m, hm⟩ := mem_fracSplits hp
    refine ⟨m + ((cs.takeWhile (fun c => c.isDigit)).length - i), ?_⟩
    simp only [hm, List.drop_drop]
    congr 1
    omega
  · subst h
    exact ⟨_, rfl⟩

theorem mem_wsSplits {cs r : List Char} (hr : r ∈ wsSplits cs) : ∃ m, r = cs.drop m := by
  unfold wsSplits at hr
  simp only [List.mem_map, List.mem_range] at hr
  obtain ⟨i, _, rfl⟩ := hr
  exact ⟨_, rfl⟩

theorem mem_unitSplits {cs : List Char} {u : Option (List Char) × List Char}
    (hu : u ∈ unitSplits cs) :
    (u.1 = none ∨ u.1 = some ['g'] ∨ u.1 = some ['c', 'u', 'p']) ∧ ∃ m, u.2 = cs.drop m := by
  unfold unitSplits at hu
  split at hu
  · simp only [List.mem_cons, List.not_mem_nil, or_false] at hu
    rcases hu with rfl | rfl
    · exact ⟨Or.inr (Or.inl rfl), _, rfl⟩
    · exact ⟨Or.inl rfl, 0, rfl⟩
  · split at hu
    · simp only [List.mem_cons, List.not_mem_nil, or_false] at hu
      rcases hu with rfl | rfl
      · exact ⟨Or.inr (Or.inr rfl), _, rfl⟩
      · exact ⟨Or.inl rfl, 0, rfl⟩
    · simp only [List.mem_cons, List.not_mem_nil, or_false] at hu
      subst hu
      exact ⟨Or.inl rfl, 0, rfl⟩

theorem mem_regexSplits {t : List Char} {x : ℚ × Option (List Char) × List Char}
    (hx : x ∈ regexSplits t) :
    (x.2.1 = none ∨ x.2.1 = some ['g'] ∨ x.2.1 = some ['c', 'u', 'p']) ∧
      ∃ m, x.2.2 = t.drop m := by
  unfold regexSplits at hx
  simp only [List.mem_flatMap] at hx
  obtain ⟨p, hp, r2, hr2, u, hu, r4, hr4, hx⟩ := hx
  obtain ⟨m1, hm1⟩ := mem_numSplits hp
  obtain ⟨m2, hm2⟩ := mem_wsSplits hr2
  obtain ⟨hu1, m3, hm3⟩ := mem_unitSplits hu
  obtain ⟨m4, hm4⟩ := mem_wsSplits hr4
  split at hx
  · simp only [List.mem_singleton] at hx
    subst hx
    refine ⟨hu1, m4 + m3 + m2 + m1, ?_⟩
    simp only [hm4, hm3, hm2, hm1, List.drop_drop]
    congr 1
    omega
  · simp at hx

/-! ### Normalisation lemmas: case and surrounding whitespace -/

/-- Characters are equal exactly when their code points are. -/
theorem char_eq_iff_toNat {a b : Char} : a = b ↔ a.toNat = b.toNat := by
  constructor
  · intro h; rw [h]
  · intro h
    exact Char.ext (UInt32.toNat.inj h)

/-- Code point of `Char.ofNat` below the surrogate range. -/
theorem toNat_ofNat_valid (n : Nat) (h : n < 55296) : (Char.ofNat n).toNat = n := by
  unfold Char.ofNat
  rw [dif_pos (Or.inl h)]
  rfl

/-- Lower-casing is idempotent on characters. -/
theorem toLowerChar_idem (c : Char) : toLowerChar (toLowerChar c) = toLowerChar c := by
  unfold toLowerChar
  by_cases h : 65 ≤ c.toNat ∧ c.toNat ≤ 90
  · rw [if_pos h]
    have ht : (Char.ofNat (c.toNat + 32)).toNat = c.toNat + 32 :=
      toNat_ofNat_valid _ (by omega)
    rw [if_neg (by rw [ht]; omega)]
  · rw [if_neg h, if_neg h]

/-- Lower-casing cannot create or destroy whitespace. -/
theorem isWs_toLowerChar (c : Char) : isWs (toLowerChar c) = isWs c := by
  unfold toLowerChar
  by_cases h : 65 ≤ c.toNat ∧ c.toNat ≤ 90
  · rw [if_pos h]
    have ht : (Char.ofNat (c.toNat + 32)).toNat = c.toNat + 32 :=
      toNat_ofNat_valid _ (by omega)
    have hws : ∀ d : Char, d.toNat ≠ 32 → d.toNat ≠ 9 → d.toNat ≠ 10 → d.toNat ≠ 13 →
        d.toNat ≠ 11 → d.toNat ≠ 12 → isWs d = false := by
      intro d h1 h2 h3 h4 h5 h6
      simp only [isWs, Bool.or_eq_false_iff, beq_eq_false_iff_ne, ne_eq, char_eq_iff_toNat,
        show (' ' : Char).toNat = 32 from rfl, show ('\t' : Char).toNat = 9 from rfl,
        show ('\n' : Char).toNat = 10 from rfl, show ('\r' : Char).toNat = 13 from rfl,
        show ('\x0b' : Char).toNat = 11 from rfl, show ('\x0c' : Char).toNat = 12 from rfl]
      refine ⟨⟨⟨⟨⟨?_, ?_⟩, ?_⟩, ?_⟩, ?_⟩, ?_⟩ <;> omega
    rw [hws _ (by rw [ht]; omega) (by rw [ht]; omega) (by rw [ht]; omega) (by rw [ht]; omega)
      (by rw [ht]; omega) (by rw [ht]; omega),
      hws c (by omega) (by omega) (by omega) (by omega) (by omega) (by omega)]
  · rw [if_neg h]

/-- Lower-casing a list is idempotent. -/
theorem lowerList_idem (l : List Char) : lowerList (lowerList l) = lowerList l := by
  unfold lowerList
  rw [List.map_map]
  exact List.map_congr_left (fun c _ => toLowerChar_idem c)

/-- Lower-casing commutes with stripping. -/
theorem lowerList_trimList (l : List Char) :
    lowerList (trimList l) = trimList (lowerList l) := by
  unfold lowerList trimList
  have hfun : (isWs ∘ toLowerChar) = isWs := by
    funext c
    exact isWs_toLowerChar c
  have hdw : ∀ m : List Char, (m.dropWhile isWs).map toLowerChar =
      (m.map toLowerChar).dropWhile isWs := by
    intro m
    rw [List.dropWhile_map, hfun]
  simp only [List.map_reverse, hdw]

/-- `trimList` as a Mathlib right-drop of a left-drop. -/
theorem trimList_eq (l : List Char) :
    trimList l = List.rdropWhile isWs (l.dropWhile isWs) := rfl

/-- The head surviving a `dropWhile` fails the predicate. -/
theorem dropWhile_head_not (p : Char → Bool) (m : List Char) :
    ∀ (x : Char) (xs : List Char), m.dropWhile p = x :: xs → p x = false := by
  induction m with
  | nil => intro x xs h; cases h
  | cons c rest ih =>
    intro x xs h
    rw [List.dropWhile_cons] at h
    by_cases hc : p c
    · rw [if_pos hc] at h
      exact ih x xs h
    · rw [if_neg hc] at h
      injection h with h1 _
      subst h1
      simpa using hc

/-- Stripping is idempotent. -/
theorem trimList_idem (l : List Char) : trimList (trimList l) = trimList l := by
  have key : List.dropWhile isWs (List.rdropWhile isWs (List.dropWhile isWs l)) =
      List.rdropWhile isWs (List.dropWhile isWs l) := by
    obtain ⟨t, ht⟩ := List.rdropWhile_prefix isWs (List.dropWhile isWs l)
    cases hT : List.rdropWhile isWs (List.dropWhile isWs l) with
    | nil => simp
    | cons x xs =>
      have hA : List.dropWhile isWs l = x :: (xs ++ t) := by
        rw [← ht, hT]
        rfl
      have hx := dropWhile_head_not isWs l x (xs ++ t) hA
      simp [List.dropWhile_cons, hx]
  rw [trimList_eq l, trimList_eq, key, List.rdropWhile_idempotent]

/-- The normalisation `text.strip().lower()` performed by `parse_quantity`. -/
def normList (l : List Char) : List Char := lowerList (trimList l)

/-- The normalisation is idempotent. -/
theorem normList_idem (l : List Char) : normList (normList l) = normList l := by
  show lowerList (trimList (lowerList (trimList l))) = lowerList (trimList l)
  rw [← lowerList_trimList (trimList l), trimList_idem, lowerList_idem]

/-- Re-parsing the normalised text gives the same parse. -/
theorem parse_quantity_norm (s : String) :
    parse_quantity (String.mk (normList s.data)) = parse_quantity s := by
  show parseNormed (normList (String.mk (normList s.data)).data) = parseNormed (normList s.data)
  rw [show (String.mk (normList s.data)).data = normList s.data from rfl, normList_idem]

/-- The remainder returned by `parse_quantity` is a suffix of the
normalised input. -/
theorem parse_remainder_suffix (s : String) :
    ∃ m, (parse_quantity s).2.2.data = (normList s.data).drop m := by
  show ∃ m, (parseNormed (normList s.data)).2.2.data = (normList s.data).drop m
  unfold parseNormed
  split
  · exact ⟨5, rfl⟩
  · cases hh : (regexSplits (normList s.data)).head? with
    | none =>
      exact ⟨0, by simp⟩
    | some x =>
      have hxm : x ∈ regexSplits (normList s.data) := by
        cases he : regexSplits (normList s.data) with
        | nil => rw [he] at hh; cases hh
        | cons y ys =>
          rw [he] at hh
          injection hh with hh
          rw [hh]
          exact List.mem_cons_self x ys
      obtain ⟨-, m, hm⟩ := mem_regexSplits hxm
      obtain ⟨q, u, r⟩ := x
      exact ⟨m, hm⟩

/-- Dropping preserves lower-cased lists. -/
theorem lowerList_drop (l : List Char) (h : lowerList l = l) (m : Nat) :
    lowerList (l.drop m) = l.drop m := by
  unfold lowerList at h ⊢
  rw [List.map_drop, h]

/-- Normalised text is lower-cased. -/
theorem lowerList_normList (l : List Char) : lowerList (normList l) = normList l := by
  show lowerList (lowerList (trimList l)) = lowerList (trimList l)
  rw [lowerList_idem]

/-- The remainder returned by `parse_quantity` is lower-case. -/
theorem parse_remainder_lower (s : String) :
    lowerList (parse_quantity s).2.2.data = (parse_quantity s).2.2.data := by
  obtain ⟨m, hm⟩ := parse_remainder_suffix s
  rw [hm]
  exact lowerList_drop _ (lowerList_normList _) m

/-! ### Properties of the fuzzy match -/

/-- The best-scoring name tracked by the scan loop comes from the items
list (or was already in the accumulator). -/
theorem bestLoop_mem (items : List (String × FoodRecord)) (tw : List (List Char)) :
    ∀ (acc : Option String × ℚ) (n : String),
      (items.foldl
          (fun acc e =>
            let score := overlapScore tw e.1
            if score > acc.2 then (some e.1, score) else acc)
          acc).1 = some n →
      (∃ e ∈ items, e.1 = n) ∨ acc.1 = some n := by
  induction items with
  | nil => intro acc n h; exact Or.inr h
  | cons e rest ih =>
    intro acc n h
    rw [List.foldl_cons] at h
    rcases ih _ n h with he | hacc
    · obtain ⟨d, hd, hdn⟩ := he
      exact Or.inl ⟨d, List.mem_cons_of_mem e hd, hdn⟩
    · by_cases hs : overlapScore tw e.1 > acc.2
      · rw [if_pos hs] at hacc
        injection hacc with hacc
        exact Or.inl ⟨e, List.mem_cons_self e rest, hacc⟩
      · rw [if_neg hs] at hacc
        exact Or.inr hacc

/-- A successful `match` returns a stored key, so the dict read inside
`get` always succeeds. -/
theorem matchFood_lookup (db : NutritionDB) (text : String) (name : String)
    (h : db.matchFood text = some name) : ∃ item, db.lookupName name = some item := by
  have hmem : name ∈ db.items.map (fun e => e.1) := by
    unfold NutritionDB.matchFood at h
    by_cases hin :
        String.mk (trimList (lowerList text.data)) ∈ db.items.map (fun e => e.1)
    · rw [if_pos hin] at h
      injection h with h
      rwa [← h]
    · rw [if_neg hin] at h
      by_cases hs : (bestLoop db.items (dedupFirst (splitWs
          (trimList (lowerList text.data))))).2 > (1 : ℚ) / 2
      · rw [if_pos hs] at h
        rcases bestLoop_mem db.items _ (none, 0) name h with he | habs
        · obtain ⟨e, he, hen⟩ := he
          exact List.mem_map.mpr ⟨e, he, hen⟩
        · cases habs
      · rw [if_neg hs] at h
        cases h
  obtain ⟨e, he, hen⟩ := List.mem_map.mp hmem
  unfold NutritionDB.lookupName
  have : (db.items.find? (fun e => e.1 = name)).isSome := by
    rw [List.find?_isSome]
    exact ⟨e, he, by simp [hen]⟩
  cases hf : db.items.find? (fun e => e.1 = name) with
  | none => rw [hf] at this; cases this
  | some e2 => exact ⟨e2.2, rfl⟩

/-- A successful dict read returns the value of a stored entry. -/
theorem lookupName_mem (db : NutritionDB) (name : String) (item : FoodRecord)
    (hl : db.lookupName name = some item) : ∃ e ∈ db.items, e.2 = item := by
  unfold NutritionDB.lookupName at hl
  cases hf : db.items.find? (fun e => e.1 = name) with
  | none => rw [hf] at hl; cases hl
  | some e =>
    rw [hf] at hl
    injection hl with hl
    exact ⟨e, List.mem_of_find?_eq_some hf, hl⟩

/-! ### Properties of the table loader -/

/-- First-some choice on options (Python dict-get fallback shape). -/
def oElse (a b : Option FoodRecord) : Option FoodRecord :=
  match a with
  | some x => some x
  | none => b

/-- What one line contributes for one dict key. -/
def rowKey (name : String) (line : String) : Option FoodRecord :=
  match rowParse line with
  | .ok (some (n, r)) => if n = name then some r else none
  | _ => none

/-- The record of the last data row carrying the given name. -/
def lastRec (name : String) (lines : List String) : Option FoodRecord :=
  lines.reverse.findSome? (rowKey name)

/-- Reading a dict after an assignment. -/
theorem find?_pyInsert (items : List (String × FoodRecord)) (name : String)
    (rec : FoodRecord) (m : String) :
    ((pyInsert items name rec).find? (fun e => e.1 = m)).map (fun e => e.2) =
      if m = name then some rec
      else (items.find? (fun e => e.1 = m)).map (fun e => e.2) := by
  induction items with
  | nil =>
    by_cases h : m = name
    · simp [pyInsert, h]
    · have h2 : ¬ name = m := fun he => h he.symm
      simp [pyInsert, h, h2]
  | cons e rest ih =>
    unfold pyInsert
    by_cases he : e.1 = name
    · rw [if_pos he]
      by_cases hm : m = name
      · simp [List.find?_cons, hm]
      · have h1 : ¬ name = m := fun hh => hm hh.symm
        have h2 : ¬ e.1 = m := by rw [he]; exact h1
        simp [List.find?_cons, h1, h2, hm]
    · rw [if_neg he]
      by_cases hem : e.1 = m
      · have hmn : ¬ m = name := fun hh => he (hem.symm ▸ hh ▸ rfl)
        simp [List.find?_cons, hem, hmn]
      · simp [List.find?_cons, hem, ih]

/-- `findSome?` over an appended list. -/
theorem findSome?_append_rec (f : String → Option FoodRecord) (xs ys : List String) :
    (xs ++ ys).findSome? f = oElse (xs.findSome? f) (ys.findSome? f) := by
  induction xs with
  | nil => simp [oElse]
  | cons a l ih =>
    rw [List.cons_append, List.findSome?_cons, List.findSome?_cons]
    cases f a with
    | none => simpa [oElse] using ih
    | some b => simp [oElse]

/-- After the `_load` fold, each key holds the record of the last data row
with that name, falling back to the starting dict. -/
theorem load_lookup (name : String) :
    ∀ (lines : List String) (acc items : List (String × FoodRecord)),
      foldlExcept loadStep acc lines = .ok items →
      (items.find? (fun e => e.1 = name)).map (fun e => e.2) =
        oElse (lastRec name lines) ((acc.find? (fun e => e.1 = name)).map (fun e => e.2)) := by
  intro lines
  induction lines with
  | nil =>
    intro acc items h
    injection h with h
    subst h
    simp [lastRec, oElse]
  | cons l rest ih =>
    intro acc items h
    unfold foldlExcept at h
    cases hstep : loadStep acc l with
    | error e => rw [hstep] at h; cases h
    | ok acc2 =>
      rw [hstep] at h
      have hrec : lastRec name (l :: rest) = oElse (lastRec name rest) (rowKey name l) := by
        unfold lastRec
        rw [List.reverse_cons, findSome?_append_rec]
        simp [List.findSome?_cons]
        cases rowKey name l <;> simp [oElse]
      rw [ih acc2 items h, hrec]
      unfold loadStep at hstep
      cases hrow : rowParse l with
      | error e => rw [hrow] at hstep; cases hstep
      | ok r =>
        rw [hrow] at hstep
        injection hstep with hstep
        cases r with
        | none =>
          have hk : rowKey name l = none := by unfold rowKey; rw [hrow]
          subst hstep
          rw [hk]
          cases lastRec name rest <;> simp [oElse]
        | some nr =>
          obtain ⟨n, rec⟩ := nr
          have hk : rowKey name l = if n = name then some rec else none := by
            unfold rowKey; rw [hrow]
          subst hstep
          rw [hk]
          cases hlast : lastRec name rest with
          | some v => simp [oElse]
          | none =>
            simp only [oElse]
            rw [find?_pyInsert]
            by_cases hn : n = name
            · simp [hn]
            · have hmn : ¬ name = n := fun hh => hn hh.symm
              simp [hn, hmn]

/-- `lastRec` looks at the later half of an appended list first. -/
theorem lastRec_append (name : String) (xs ys : List String) :
    lastRec name (xs ++ ys) = oElse (lastRec name ys) (lastRec name xs) := by
  unfold lastRec
  rw [List.reverse_append, findSome?_append_rec]

/-- `lastRec` on a single line. -/
theorem lastRec_single (name : String) (r : String) :
    lastRec name [r] = rowKey name r := by
  unfold lastRec
  simp [List.findSome?_cons]
  cases rowKey name r <;> rfl

/-! ### Characterising the options grouping -/

/-- The pure grouping of an already-resolved list of `(id, n, value)`
triples, as the `grouped` dict ends up after the loop. -/
def groupPure {α : Type} (l : List (Nat × Nat × α)) : List (Nat × Nat × List α) :=
  l.foldl insertGrouped []

/-- The values filed under one id, in order. -/
def valsOf {α : Type} (l : List (Nat × Nat × α)) (id : Nat) : List α :=
  (l.filter (fun e => e.1 = id)).map (fun e => e.2.2)

theorem keys_insertGrouped {α : Type} (acc : List (Nat × Nat × List α)) (x : Nat × Nat × α) :
    (insertGrouped acc x).map (fun g => g.1) =
      if x.1 ∈ acc.map (fun g => g.1) then acc.map (fun g => g.1)
      else acc.map (fun g => g.1) ++ [x.1] := by
  induction acc with
  | nil => simp [insertGrouped]
  | cons e rest ih =>
    unfold insertGrouped
    by_cases he : e.1 = x.1
    · simp [he]
    · have hne : ¬ x.1 = e.1 := fun hh => he hh.symm
      simp only [List.map_cons, List.mem_cons, hne, false_or, if_neg he, ih]
      by_cases hx : x.1 ∈ rest.map (fun g => g.1) <;> simp [hx]

theorem insertGrouped_absent {α : Type} (acc : List (Nat × Nat × List α)) (x : Nat × Nat × α)
    (h : x.1 ∉ acc.map (fun g => g.1)) :
    insertGrouped acc x = acc ++ [(x.1, x.2.1, [x.2.2])] := by
  induction acc with
  | nil => rfl
  | cons e rest ih =>
    unfold insertGrouped
    have he : ¬ e.1 = x.1 := by
      intro hh
      exact h (by simp [hh])
    rw [if_neg he, ih (fun hm => h (by simp [hm]))]
    rfl

theorem insertGrouped_present {α : Type} (acc : List (Nat × Nat × List α)) (x : Nat × Nat × α)
    (hnd : (acc.map (fun g => g.1)).Nodup) (h : x.1 ∈ acc.map (fun g => g.1)) :
    insertGrouped acc x =
      acc.map (fun e => if e.1 = x.1 then (e.1, e.2.1, e.2.2 ++ [x.2.2]) else e) := by
  induction acc with
  | nil => cases h
  | cons e rest ih =>
    rw [List.map_cons, List.nodup_cons] at hnd
    rw [List.map_cons, List.mem_cons] at h
    unfold insertGrouped
    by_cases he : e.1 = x.1
    · rw [if_pos he]
      have hx : x.1 ∉ rest.map (fun g => g.1) := he ▸ hnd.1
      have hmap : rest.map (fun e => if e.1 = x.1 then (e.1, e.2.1, e.2.2 ++ [x.2.2]) else e)
          = rest := by
        conv_rhs => rw [← List.map_id rest]
        apply List.map_congr_left
        intro a ha
        have hax : ¬ a.1 = x.1 := fun hh => hx (List.mem_map.mpr ⟨a, ha, hh⟩)
        simp [hax]
      rw [List.map_cons, if_pos he, hmap]
    · rw [if_neg he]
      have hx : x.1 ∈ rest.map (fun g => g.1) := by
        rcases h with hh | hh
        · exact absurd hh.symm he
        · exact hh
      rw [ih hnd.2 hx, List.map_cons, if_neg he]

theorem valsOf_append_single {α : Type} (l : List (Nat × Nat × α)) (x : Nat × Nat × α)
    (id : Nat) :
    valsOf (l ++ [x]) id = valsOf l id ++ (if x.1 = id then [x.2.2] else []) := by
  unfold valsOf
  rw [List.filter_append, List.map_append]
  congr 1
  by_cases hx : x.1 = id <;> simp [hx]

theorem groupPure_char {α : Type} (l : List (Nat × Nat × α)) :
    ((groupPure l).map (fun g => g.1)).Nodup ∧
    (∀ id, id ∈ (groupPure l).map (fun g => g.1) ↔ id ∈ l.map (fun e => e.1)) ∧
    (∀ g ∈ groupPure l, g.2.2 = valsOf l g.1 ∧
      ∃ e, l.find? (fun x => x.1 = g.1) = some e ∧ g.2.1 = e.2.1) := by
  induction l using List.reverseRecOn with
  | nil => simp [groupPure]
  | append_singleton l x ih =>
    obtain ⟨ihnd, ihmem, ihent⟩ := ih
    have hconcat : groupPure (l ++ [x]) = insertGrouped (groupPure l) x := by
      unfold groupPure
      rw [List.foldl_append]
      rfl
    have hkeysl : (l ++ [x]).map (fun e => e.1) = l.map (fun e => e.1) ++ [x.1] := by
      rw [List.map_append]
      rfl
    by_cases hx : x.1 ∈ (groupPure l).map (fun g => g.1)
    · have hxl : x.1 ∈ l.map (fun e => e.1) := (ihmem x.1).mp hx
      rw [hconcat, insertGrouped_present _ _ ihnd hx]
      have hkeys : (((groupPure l).map
            (fun e => if e.1 = x.1 then (e.1, e.2.1, e.2.2 ++ [x.2.2]) else e)).map
              (fun g => g.1)) = (groupPure l).map (fun g => g.1) := by
        rw [List.map_map]
        apply List.map_congr_left
        intro a _
        by_cases ha : a.1 = x.1 <;> simp [ha]
      refine ⟨by rw [hkeys]; exact ihnd, ?_, ?_⟩
      · intro id
        rw [hkeys, hkeysl, List.mem_append, ihmem id]
        constructor
        · exact Or.inl
        · rintro (hid | hid)
          · exact hid
          · rw [List.mem_singleton] at hid
            rw [hid]
            exact hxl
      · intro g' hg'
        obtain ⟨g, hg, hfg⟩ := List.mem_map.mp hg'
        obtain ⟨hvals, e, hfind, hn⟩ := ihent g hg
        rw [← hfg]
        by_cases hgx : g.1 = x.1
        · simp only [if_pos hgx]
          refine ⟨?_, e, ?_, hn⟩
          · show g.2.2 ++ [x.2.2] = valsOf (l ++ [x]) g.1
            rw [valsOf_append_single, if_pos hgx.symm, hvals]
          · show (l ++ [x]).find? (fun y => y.1 = g.1) = some e
            rw [List.find?_append, hfind]
            rfl
        · rw [if_neg hgx]
          constructor
          · rw [valsOf_append_single, if_neg (fun hh => hgx hh.symm), List.append_nil]
            exact hvals
          · refine ⟨e, ?_, hn⟩
            rw [List.find?_append, hfind]
            rfl
    · have hxl : x.1 ∉ l.map (fun e => e.1) := fun hh => hx ((ihmem x.1).mpr hh)
      rw [hconcat, insertGrouped_absent _ _ hx]
      have hkeys : ((groupPure l ++ [(x.1, x.2.1, [x.2.2])]).map (fun g => g.1)) =
          (groupPure l).map (fun g => g.1) ++ [x.1] := by
        rw [List.map_append]
        rfl
      refine ⟨?_, ?_, ?_⟩
      · rw [hkeys]
        apply List.Nodup.append ihnd (List.nodup_singleton x.1)
        intro a ha hb
        rw [List.mem_singleton] at hb
        subst hb
        exact hx ha
      · intro id
        rw [hkeys, hkeysl, List.mem_append, List.mem_append, ihmem id]
      · intro g' hg'
        rw [List.mem_append, List.mem_singleton] at hg'
        rcases hg' with hg | hg
        · obtain ⟨hvals, e, hfind, hn⟩ := ihent g' hg
          have hgx : ¬ x.1 = g'.1 := by
            intro hh
            exact hx (hh ▸ List.mem_map.mpr ⟨g', hg, rfl⟩)
          constructor
          · rw [valsOf_append_single, if_neg hgx, List.append_nil]
            exact hvals
          · refine ⟨e, ?_, hn⟩
            rw [List.find?_append, hfind]
            rfl
        · subst hg
          constructor
          · show [x.2.2] = valsOf (l ++ [x]) x.1
            rw [valsOf_append_single, if_pos rfl]
            have : valsOf l x.1 = [] := by
              unfold valsOf
              rw [List.filter_eq_nil_iff.mpr, List.map_nil]
              intro a ha hh
              exact hxl (List.mem_map.mpr ⟨a, ha, by simpa using hh⟩)
            rw [this, List.nil_append]
          · refine ⟨x, ?_, rfl⟩
            rw [List.find?_append]
            have hnone : l.find? (fun y => y.1 = x.1) = none := by
              rw [List.find?_eq_none]
              intro a ha hh
              exact hxl (List.mem_map.mpr ⟨a, ha, by simpa using hh⟩)
            rw [hnone]
            simp

/-- The grouping loop factors into resolving all options, then grouping
purely. -/
theorem buildGrouped_vals (db : NutritionDB) :
    ∀ (opts : List (List String × Nat × Nat)) (acc G : List (Nat × Nat × List Nutrients)),
      foldlExcept
        (fun a o => (get_nutrients db o.1).map (fun v => insertGrouped a (o.2.2, o.2.1, v)))
        acc opts = .ok G →
      ∃ vals : List (Nat × Nat × Nutrients),
        mapExcept (fun o => (get_nutrients db o.1).map (fun v => (o.2.2, o.2.1, v))) opts =
          .ok vals ∧ G = vals.foldl insertGrouped acc := by
  intro opts
  induction opts with
  | nil =>
    intro acc G h
    injection h with h
    exact ⟨[], rfl, h.symm⟩
  | cons o rest ih =>
    intro acc G h
    unfold foldlExcept at h
    cases hv : get_nutrients db o.1 with
    | error e =>
      rw [show (get_nutrients db o.1).map
          (fun v => insertGrouped acc (o.2.2, o.2.1, v)) = .error e by rw [hv]; rfl] at h
      cases h
    | ok v =>
      rw [show (get_nutrients db o.1).map
          (fun v => insertGrouped acc (o.2.2, o.2.1, v)) =
            .ok (insertGrouped acc (o.2.2, o.2.1, v)) by rw [hv]; rfl] at h
      obtain ⟨vals, hmap, hG⟩ := ih _ G h
      refine ⟨(o.2.2, o.2.1, v) :: vals, ?_, ?_⟩
      · unfold mapExcept
        rw [show (get_nutrients db o.1).map
            (fun v => ((o.2.2 : Nat), (o.2.1 : Nat), v)) = .ok (o.2.2, o.2.1, v) by
              rw [hv]; rfl]
        rw [hmap]
        rfl
      · rw [List.foldl_cons]
        exact hG

/-- A successful `mapExcept` resolves each element in order. -/
theorem mapExcept_zip {α β : Type} (f : α → Except String β) :
    ∀ (l : List α) (vals : List β), mapExcept f l = .ok vals →
      vals.length = l.length ∧ ∀ p ∈ l.zip vals, f p.1 = .ok p.2 := by
  intro l
  induction l with
  | nil =>
    intro vals h
    injection h with h
    subst h
    exact ⟨rfl, by intro p hp; cases hp⟩
  | cons a rest ih =>
    intro vals h
    unfold mapExcept at h
    cases ha : f a with
    | error e => rw [ha] at h; cases h
    | ok b =>
      rw [ha] at h
      cases hrest : mapExcept f rest with
      | error e => rw [hrest] at h; cases h
      | ok bs =>
        rw [hrest] at h
        obtain ⟨hlen, hzip⟩ := ih bs hrest
        have hv : vals = b :: bs := by
          injection h with h
          exact h.symm
        subst hv
        refine ⟨by simp [hlen], ?_⟩
        intro p hp
        rw [List.zip_cons_cons] at hp
        rcases List.mem_cons.mp hp with hh | hh
        · rw [hh]
          exact ha
        · exact hzip p hh

/-- Two pointwise-related lists have equal images. -/
theorem zip_map_eq {α β γ : Type} {l : List α} {vals : List β}
    (g : α → γ) (h : β → γ) :
    vals.length = l.length → (∀ p ∈ l.zip vals, g p.1 = h p.2) →
    l.map g = vals.map h := by
  induction l generalizing vals with
  | nil =>
    intro hlen _
    cases vals with
    | nil => rfl
    | cons b bs => cases hlen
  | cons a rest ih =>
    intro hlen hp
    cases vals with
    | nil => cases hlen
    | cons b bs =>
      rw [List.map_cons, List.map_cons]
      have h1 : g a = h b := by
        apply hp (a, b)
        rw [List.zip_cons_cons]
        exact List.mem_cons_self _ _
      have h2 : rest.map g = bs.map h := by
        apply ih (by simpa using hlen)
        intro p hq
        apply hp p
        rw [List.zip_cons_cons]
        exact List.mem_cons_of_mem _ hq
      rw [h1, h2]

/-- The value `Nutrients.avg` succeeds with on a nonempty list. -/
def avgVal (items : List Nutrients) : Nutrients :=
  (items.foldl (· + ·) (Nutrients.mk 0 0 0 0)).div items.length

theorem avg_ok (items : List Nutrients) (h : items ≠ []) :
    Nutrients.avg items = .ok (avgVal items) := by
  unfold Nutrients.avg avgVal
  rw [if_neg (by simpa using h)]

/-- Evaluating the second options loop when every grouped entry is
nonempty. -/
theorem optionsTotal_eval :
    ∀ (G : List (Nat × Nat × List Nutrients)), (∀ g ∈ G, g.2.2 ≠ []) →
      ∀ t0, optionsTotal G t0 =
        .ok (G.foldl (fun t g => t + avgVal g.2.2 * (g.2.1 : ℚ)) t0) := by
  intro G
  induction G with
  | nil => intro _ t0; rfl
  | cons g rest ih =>
    intro hne t0
    unfold optionsTotal foldlExcept
    rw [show (Nutrients.avg g.2.2).map (fun a => t0 + a * (g.2.1 : ℚ)) =
        .ok (t0 + avgVal g.2.2 * (g.2.1 : ℚ)) by
          rw [avg_ok g.2.2 (hne g (List.mem_cons_self g rest))]; rfl]
    rw [List.foldl_cons]
    exact ih (fun a ha => hne a (List.mem_cons_of_mem g ha)) _

/-- The head candidate of the regex, when one exists, is a member. -/
theorem head_mem_regexSplits {t : List Char} {x : ℚ × Option (List Char) × List Char}
    (hh : (regexSplits t).head? = some x) : x ∈ regexSplits t := by
  cases he : regexSplits t with
  | nil => rw [he] at hh; cases hh
  | cons y ys =>
    rw [he] at hh
    injection hh with hh
    rw [hh]
    exact List.mem_cons_self x ys

/-- The unit produced by the regex body is always `None`, `"g"` or `"cup"`. -/
theorem parseNormed_unit_range (t : List Char) :
    (parseNormed t).2.1 = none ∨ (parseNormed t).2.1 = some "g" ∨
    (parseNormed t).2.1 = some "cup" := by
  unfold parseNormed
  split
  · left; rfl
  · cases hh : (regexSplits t).head? with
    | none => left; rfl
    | some x =>
      obtain ⟨hu, -⟩ := mem_regexSplits (head_mem_regexSplits hh)
      obtain ⟨q, u, r⟩ := x
      rcases hu with hu | hu | hu <;> rw [show u = _ from hu]
      · left; rfl
      · right; left; rfl
      · right; right; rfl

/-- The parsed unit of any menu text is always `None`, `"g"` or `"cup"`. -/
theorem parse_unit_range (s : String) :
    (parse_quantity s).2.1 = none ∨ (parse_quantity s).2.1 = some "g" ∨
    (parse_quantity s).2.1 = some "cup" :=
  parseNormed_unit_range (normList s.data)

/-! ### Shared ratio lemma for `get` -/

/-- What `NutritionDB.get` returns when the match and the dict read
succeed and the reference serving is nonzero: every field of the record
scaled by one ratio, which is `qty / serving_amt` exactly when the
`if`/`elif` chain's conditions hold (both grams, equal units, or no unit),
and the bare quantity otherwise. -/
theorem get_ratio (db : NutritionDB) (text : String) (qty : ℚ) (unit : Option String)
    (rest name : String) (item : FoodRecord)
    (hp : parse_quantity text = (qty, unit, rest))
    (hm : db.matchFood rest = some name)
    (hl : db.lookupName name = some item)
    (ha : item.serving_amt ≠ 0) :
    ∃ r : ℚ,
      db.get text = .ok ⟨item.c * r, item.p * r, item.f * r, item.cal * r⟩ ∧
      (((unit = some "g" ∧ item.serving_unit = "g") ∨ unit = some item.serving_unit ∨
          unit = none) → r = qty / item.serving_amt) ∧
      (¬ ((unit = some "g" ∧ item.serving_unit = "g") ∨ unit = some item.serving_unit ∨
          unit = none) → r = qty) := by
  refine ⟨if (unit = some "g" ∧ item.serving_unit = "g") ∨ unit = some item.serving_unit ∨
      unit = none then qty / item.serving_amt else qty, ?_, fun h => if_pos h, fun h => if_neg h⟩
  by_cases h1 : unit = some "g" ∧ item.serving_unit = "g" <;>
    by_cases h2 : unit = some item.serving_unit <;>
      by_cases h3 : unit = none <;>
        simp [NutritionDB.get, hp, hm, hl, divPy, ha, h1, h2, h3]

/-! ### Fixture data for the witnesses -/

/-- A small nutrition table with gram-based and non-gram records. -/
def dbW : NutritionDB :=
  ⟨[("white rice", ⟨20, 2, 1, 100, "g", 90⟩), ("egg", ⟨1, 6, 5, 1, "unit", 70⟩),
    ("brown rice", ⟨23, 3, 1, 100, "g", 110⟩)]⟩

/-- A table whose single record has a zero reference serving amount. -/
def dbZero : NutritionDB := ⟨[("banana", ⟨1, 0, 0, 0, "g", 1⟩)]⟩

/-- Options fixture: a choose-2 group with two alternatives and a
choose-1 group with one. -/
def optsW : List (List String × Nat × Nat) :=
  [(["egg"], 2, 1), (["white rice"], 2, 1), (["brown rice"], 1, 2)]

/-- The grouped dict the options fixture produces. -/
def groupedW : List (Nat × Nat × List Nutrients) :=
  [(1, 2, [⟨1, 6, 5, 70⟩, ⟨1 / 5, 1 / 50, 1 / 100, 9 / 10⟩]),
    (2, 1, [⟨23 / 100, 3 / 100, 1 / 100, 11 / 10⟩])]

/-- Menu fixture with only an `extra` block. -/
def menuExtra : Menu :=
  { extra := ⟨10, 0, 0, 100⟩, carbs_per_day := fun _ => none, carbs_item := none,
    fixed := [], options := [], choose_groups := [] }

/-- Menu fixture with a per-day carbs item. -/
def menuCarbs : Menu :=
  { extra := ⟨0, 0, 0, 0⟩,
    carbs_per_day := fun d => if d = "upper" then some 50 else none,
    carbs_item := some "brown rice", fixed := [], options := [], choose_groups := [] }

/-- Menu fixture with two items the table does not know. -/
def menuMissing : Menu :=
  { extra := ⟨0, 0, 0, 0⟩, carbs_per_day := fun _ => none, carbs_item := none,
    fixed := [["dragonfruit"], ["unicorn meat"]], options := [], choose_groups := [] }

/-- A table source whose two data rows share the canonical name `apple`. -/
def linesDup : List String :=
  ["| # | Name | C | P | F | Amt | Unit | Cal |",
   "|---|---|---|---|---|---|---|---|",
   "| 1 | Apple | 10 | 0.5 | 0 | 100 | g | 40 |",
   "| 2 | APPLE | 12 | 1 | 0 | 100 | g | 52 |"]

/-- The table the duplicate source loads to. -/
def dbDup : NutritionDB := ⟨[("apple", ⟨12, 1, 0, 100, "g", 52⟩)]⟩

/-! ### The claims -/

/-- C1: for every menu text whose parsed remainder matches a record (with
nonzero reference serving, as exact division requires), `get` returns the
record's four fields each multiplied by one ratio; the ratio is
`requestedAmount / referenceServingAmount` whenever both units are grams,
or the units are equal, or no unit was parsed, and the bare requested
amount on a genuine unit mismatch. -/
theorem spec_C1 (db : NutritionDB) (text : String) (qty : ℚ) (unit : Option String)
    (rest name : String) (item : FoodRecord)
    (hp : parse_quantity text = (qty, unit, rest))
    (hm : db.matchFood rest = some name)
    (hl : db.lookupName name = some item)
    (ha : item.serving_amt ≠ 0) :
    ∃ r : ℚ,
      db.get text = .ok ⟨item.c * r, item.p * r, item.f * r, item.cal * r⟩ ∧
      (((unit = some "g" ∧ item.serving_unit = "g") ∨ unit = some item.serving_unit ∨
          unit = none) → r = qty / item.serving_amt) ∧
      (¬ ((unit = some "g" ∧ item.serving_unit = "g") ∨ unit = some item.serving_unit ∨
          unit = none) → r = qty) :=
  get_ratio db text qty unit rest name item hp hm hl ha

/-- C1 witness: a record with serving amount 100 g and carbs 20 g
requested as `50g` yields carbs 10. -/
theorem spec_C1_witness :
    NutritionDB.get dbW "50g white rice" = .ok ⟨10, 1, 1 / 2, 45⟩ := by
  obtain ⟨r, hr, hcond, -⟩ :=
    spec_C1 dbW "50g white rice" 50 (some "g") "white rice" "white rice"
      ⟨20, 2, 1, 100, "g", 90⟩ (by decide) (by decide) (by decide) (by decide)
  rw [hcond (Or.inl ⟨rfl, rfl⟩)] at hr
  rw [hr]
  decide

/-- C2 counterexample: the unit token is matched with no word boundary, so
`2 cups rice` parses with remainder `s rice`, not `rice` as the claim
states. -/
theorem spec_C2_counterexample :
    parse_quantity "2 cups rice" = ((2 : ℚ), some "cup", "s rice") ∧
    parse_quantity "2 cups rice" ≠ ((2 : ℚ), some "cup", "rice") := by
  decide

/-- C2 amended: the unit token is exactly `g` or `cup` (every parse yields
one of none, `g`, `cup`), but it is matched as a bare prefix with no word
boundary: a word beginning with `g` or `cup` loses that prefix to the unit
and only its tail stays in the remainder, while a word beginning otherwise
is kept whole. -/
theorem spec_C2 :
    (∀ s : String, (parse_quantity s).2.1 = none ∨ (parse_quantity s).2.1 = some "g" ∨
      (parse_quantity s).2.1 = some "cup") ∧
    parse_quantity "110g chicken" = ((110 : ℚ), some "g", "chicken") ∧
    parse_quantity "2 cups rice" = ((2 : ℚ), some "cup", "s rice") ∧
    parse_quantity "110 grams chicken" = ((110 : ℚ), some "g", "rams chicken") ∧
    parse_quantity "110 pounds chicken" = ((110 : ℚ), none, "pounds chicken") :=
  ⟨parse_unit_range, by decide, by decide, by decide, by decide⟩

/-- C3: the aggregator groups the options entries by choice-group id; each
grouped entry holds the resolved values of ALL options tagged with that id
(in order, never a subset), carries the required count of the first such
entry, and the options contribution adds `average * n` for every grouped
entry. -/
theorem spec_C3 (db : NutritionDB) (opts : List (List String × Nat × Nat))
    (G : List (Nat × Nat × List Nutrients))
    (h : buildGrouped db opts = .ok G) :
    ((G.map (fun g => g.1)).Nodup) ∧
    (∀ id, id ∈ G.map (fun g => g.1) ↔ id ∈ opts.map (fun o => o.2.2)) ∧
    (∃ vals : List (Nat × Nat × Nutrients),
      vals.length = opts.length ∧
      (∀ p ∈ opts.zip vals, p.2.1 = p.1.2.2 ∧ p.2.2.1 = p.1.2.1 ∧
        get_nutrients db p.1.1 = .ok p.2.2.2) ∧
      (∀ g ∈ G, g.2.2 = (vals.filter (fun x => x.1 = g.1)).map (fun x => x.2.2) ∧
        ∃ e, vals.find? (fun x => x.1 = g.1) = some e ∧ g.2.1 = e.2.1)) ∧
    (∀ t0, optionsTotal G t0 =
      .ok (G.foldl (fun t g => t + avgVal g.2.2 * (g.2.1 : ℚ)) t0)) := by
  unfold buildGrouped at h
  obtain ⟨vals, hmap, hG⟩ := buildGrouped_vals db opts [] G h
  have hGp : G = groupPure vals := hG
  obtain ⟨hnd, hmem, hent⟩ := groupPure_char vals
  obtain ⟨hlen, hzip⟩ := mapExcept_zip _ opts vals hmap
  have hz : ∀ p ∈ opts.zip vals, p.2.1 = p.1.2.2 ∧ p.2.2.1 = p.1.2.1 ∧
      get_nutrients db p.1.1 = .ok p.2.2.2 := by
    intro p hp
    obtain ⟨o, pv⟩ := p
    have hq := hzip (o, pv) hp
    cases hv : get_nutrients db o.1 with
    | error e =>
      rw [show (get_nutrients db o.1).map
          (fun v => ((o.2.2 : Nat), (o.2.1 : Nat), v)) = .error e by rw [hv]; rfl] at hq
      cases hq
    | ok v =>
      rw [show (get_nutrients db o.1).map
          (fun v => ((o.2.2 : Nat), (o.2.1 : Nat), v)) = .ok (o.2.2, o.2.1, v) by
            rw [hv]; rfl] at hq
      injection hq with hq
      subst hq
      exact ⟨rfl, rfl, rfl⟩
  have hkeys : opts.map (fun o => o.2.2) = vals.map (fun x => x.1) := by
    apply zip_map_eq _ _ hlen
    intro p hp
    exact ((hz p hp).1).symm
  have hne : ∀ g ∈ G, g.2.2 ≠ [] := by
    intro g hg
    rw [hGp] at hg
    obtain ⟨hvals, e, hfind, -⟩ := hent g hg
    rw [hvals]
    unfold valsOf
    intro hempty
    rw [List.map_eq_nil_iff] at hempty
    have hpe := List.find?_some hfind
    have hme := List.mem_of_find?_eq_some hfind
    have hmf : e ∈ vals.filter (fun x => x.1 = g.1) := List.mem_filter.mpr ⟨hme, hpe⟩
    rw [hempty] at hmf
    cases hmf
  refine ⟨hGp ▸ hnd, ?_, ⟨vals, hlen, hz, ?_⟩, ?_⟩
  · intro id
    rw [hGp, hkeys]
    exact hmem id
  · intro g hg
    rw [hGp] at hg
    obtain ⟨hvals, e, hfind, hn⟩ := hent g hg
    exact ⟨hvals, e, hfind, hn⟩
  · intro t0
    exact optionsTotal_eval G hne t0

/-- C3 witness: a concrete options list with a choose-2 group holding two
alternatives, evaluated through the grouping and the totals loop. -/
theorem spec_C3_witness :
    buildGrouped dbW optsW = .ok groupedW ∧
    (groupedW.map (fun g => g.1)).Nodup ∧
    optionsTotal groupedW ⟨0, 0, 0, 0⟩ =
      .ok (groupedW.foldl (fun t g => t + avgVal g.2.2 * (g.2.1 : ℚ)) ⟨0, 0, 0, 0⟩) := by
  have hb : buildGrouped dbW optsW = .ok groupedW := by decide
  obtain ⟨hnd, -, -, htot⟩ := spec_C3 dbW optsW groupedW hb
  exact ⟨hb, hnd, htot ⟨0, 0, 0, 0⟩⟩

/-- C4: the extra adjustment is added exactly once, after everything else:
its literal macro grams are added as-is and the added calorie amount is
the literal extra calorie figure plus `carbs*4 + protein*4 + fat*9`. -/
theorem spec_C4 (db : NutritionDB) (menu : Menu) (day : String) (t : Nutrients)
    (h : calculate db menu day = .ok t) :
    ∃ pre, preTotal db menu day = .ok pre ∧
      t = pre + Nutrients.mk menu.extra.c menu.extra.p menu.extra.f
        (menu.extra.cal + (menu.extra.c * 4 + menu.extra.p * 4 + menu.extra.f * 9)) := by
  unfold calculate at h
  cases hp : preTotal db menu day with
  | error e =>
    rw [hp] at h
    cases h
  | ok pre =>
    rw [hp] at h
    refine ⟨pre, rfl, ?_⟩
    simp only [KCAL_PER_G] at h
    simp at h
    exact h.symm

/-- C4 witness: an extra block with carbs 10 and calories 100 adds 10
carb grams and `100 + 40` calories. -/
theorem spec_C4_witness :
    calculate dbW menuExtra "rest" = .ok ⟨10, 0, 0, 140⟩ ∧
    ∃ pre, preTotal dbW menuExtra "rest" = .ok pre ∧
      (⟨10, 0, 0, 140⟩ : Nutrients) =
        pre + Nutrients.mk 10 0 0 (100 + (10 * 4 + 0 * 4 + 0 * 9)) := by
  have hc : calculate dbW menuExtra "rest" = .ok ⟨10, 0, 0, 140⟩ := by decide
  exact ⟨hc, spec_C4 dbW menuExtra "rest" ⟨10, 0, 0, 140⟩ hc⟩

/-- C5: when a carbs item is configured (truthy) and the day has a
configured nonzero portion amount, the aggregator looks up
`"{amount}g {item}"` and adds its resolved value; a day with no configured
amount contributes nothing from the carbs item. -/
theorem spec_C5 (db : NutritionDB) (menu : Menu) (day : String) (t : Nutrients) :
    (∀ (item : String) (grams : ℚ), menu.carbs_item = some item → item ≠ "" →
        menu.carbs_per_day day = some grams → grams ≠ 0 →
        carbsStep db menu day t =
          (db.get (floatStr grams ++ "g " ++ item)).map (fun v => t + v)) ∧
    (menu.carbs_per_day day = none → carbsStep db menu day t = .ok t) := by
  constructor
  · intro item grams hi hne hg hgz
    unfold carbsStep
    rw [hi, hg]
    simp [hne, hgz]
  · intro hg
    unfold carbsStep
    cases menu.carbs_item with
    | none => rfl
    | some item =>
      by_cases hne : item = ""
      · simp [hne]
      · simp [hne, hg]

/-- C5 witness: the `upper` day looks up `50.0g brown rice` and adds it;
the `rest` day adds nothing. -/
theorem spec_C5_witness :
    carbsStep dbW menuCarbs "upper" ⟨0, 0, 0, 0⟩ =
      (dbW.get (floatStr 50 ++ "g " ++ "brown rice")).map (fun v => ⟨0, 0, 0, 0⟩ + v) ∧
    floatStr 50 ++ "g " ++ "brown rice" = "50.0g brown rice" ∧
    carbsStep dbW menuCarbs "rest" ⟨0, 0, 0, 0⟩ = .ok ⟨0, 0, 0, 0⟩ := by
  refine ⟨?_, by decide, ?_⟩
  · exact (spec_C5 dbW menuCarbs "upper" ⟨0, 0, 0, 0⟩).1 "brown rice" 50 rfl (by decide)
      (by decide) (by decide)
  · exact (spec_C5 dbW menuCarbs "rest" ⟨0, 0, 0, 0⟩).2 (by decide)

/-- C6 counterexample: for a record with a zero reference serving amount,
`exists` is true (the name matches exactly, score 1) while `get` raises
`ZeroDivisionError`, so the round-trip claim fails as stated. -/
theorem spec_C6_counterexample :
    NutritionDB.existsItem dbZero "banana" = true ∧
    NutritionDB.matchFood dbZero "banana" = some "banana" ∧
    NutritionDB.get dbZero "banana" = .error "ZeroDivisionError: float division by zero" := by
  decide

/-- C6 amended: provided every record's reference serving amount is
nonzero, `exists(x)` is true exactly when `get(x)` does not raise. -/
theorem spec_C6 (db : NutritionDB) (x : String)
    (hserv : ∀ p ∈ db.items, p.2.serving_amt ≠ 0) :
    db.existsItem x = true ↔ ∃ v, db.get x = .ok v := by
  constructor
  · intro h
    unfold NutritionDB.existsItem at h
    rw [Option.isSome_iff_exists] at h
    obtain ⟨name, hm⟩ := h
    obtain ⟨item, hl⟩ := matchFood_lookup db _ name hm
    obtain ⟨e, hemem, heq⟩ := lookupName_mem db name item hl
    have ha : item.serving_amt ≠ 0 := heq ▸ hserv e hemem
    obtain ⟨r, hr, -, -⟩ :=
      get_ratio db x (parse_quantity x).1 (parse_quantity x).2.1 (parse_quantity x).2.2
        name item rfl hm hl ha
    exact ⟨_, hr⟩
  · rintro ⟨v, hv⟩
    unfold NutritionDB.existsItem
    unfold NutritionDB.get at hv
    cases hm : db.matchFood (parse_quantity x).2.2 with
    | none => simp [hm] at hv
    | some name => simp [hm]

/-- C6 witness: on a table whose servings are nonzero the round-trip holds
at a concrete string. -/
theorem spec_C6_witness :
    NutritionDB.existsItem dbW "50g white rice" = true ↔
      ∃ v, NutritionDB.get dbW "50g white rice" = .ok v :=
  spec_C6 dbW "50g white rice" (by decide)

/-- C7: when any menu item is missing from the table, the run fails before
any aggregation with one single error listing every missing name; no day
total is computed. -/
theorem spec_C7 (db : NutritionDB) (menu : Menu)
    (h : menu.all_items.filter (fun item => ¬ db.existsItem item) ≠ []) :
    runDays db menu = .error ("Not found in nutrition_facts.md:\n" ++
      String.intercalate "\n"
        ((menu.all_items.filter (fun item => ¬ db.existsItem item)).map
          (fun m => "   - " ++ m))) := by
  unfold runDays check_menu
  rw [if_pos h]
  rfl

/-- C7 witness: two unknown items produce one aggregated error naming
both, and the run yields no totals. -/
theorem spec_C7_witness :
    runDays dbW menuMissing =
      .error "Not found in nutrition_facts.md:\n   - dragonfruit\n   - unicorn meat" := by
  have h := spec_C7 dbW menuMissing (by decide)
  rw [h]
  decide

/-- C8: on a nonempty list, `avg` is the fieldwise sum divided by the
length; it is invariant under permutation of the list; on the empty list
it raises. -/
theorem spec_C8 :
    (∀ l : List Nutrients, l ≠ [] →
      Nutrients.avg l = .ok ⟨(l.map (fun x => x.c)).sum / l.length,
        (l.map (fun x => x.p)).sum / l.length, (l.map (fun x => x.f)).sum / l.length,
        (l.map (fun x => x.cal)).sum / l.length⟩) ∧
    (∀ l l' : List Nutrients, l.Perm l' → Nutrients.avg l = Nutrients.avg l') ∧
    Nutrients.avg [] = .error "ZeroDivisionError: division by zero" := by
  refine ⟨avg_eq_sum_div, ?_, rfl⟩
  intro l l' hp
  rcases eq_or_ne l [] with rfl | hne
  · rw [List.Perm.eq_nil hp.symm]
  · have hne2 : l' ≠ [] := by
      intro he
      subst he
      exact hne (List.Perm.eq_nil hp)
    rw [avg_eq_sum_div l hne, avg_eq_sum_div l' hne2, hp.length_eq,
      (hp.map (fun x => x.c)).sum_eq, (hp.map (fun x => x.p)).sum_eq,
      (hp.map (fun x => x.f)).sum_eq, (hp.map (fun x => x.cal)).sum_eq]

/-- C8 witness: the averaging example from the specification, plus order
independence of a two-element list. -/
theorem spec_C8_witness :
    Nutrients.avg [⟨10, 0, 0, 40⟩, ⟨0, 10, 0, 40⟩] = .ok ⟨5, 5, 0, 40⟩ ∧
    Nutrients.avg [⟨10, 0, 0, 40⟩, ⟨0, 10, 0, 40⟩] =
      Nutrients.avg [⟨0, 10, 0, 40⟩, ⟨10, 0, 0, 40⟩] := by
  constructor
  · rw [spec_C8.1 [⟨10, 0, 0, 40⟩, ⟨0, 10, 0, 40⟩] (by decide)]
    decide
  · exact spec_C8.2.1 _ _ (List.Perm.swap _ _ _)

/-- C9: parsing is insensitive to case and surrounding whitespace — the
parse of `s` equals the parse of the stripped, lower-cased `s` — the
returned remainder is always lower-case, and consequently `exists` and the
outcome of `get` are case- and whitespace-insensitive in the menu text. -/
theorem spec_C9 (s : String) (db : NutritionDB) :
    parse_quantity (String.mk (normList s.data)) = parse_quantity s ∧
    lowerList (parse_quantity s).2.2.data = (parse_quantity s).2.2.data ∧
    db.existsItem (String.mk (normList s.data)) = db.existsItem s ∧
    exOk (db.get (String.mk (normList s.data))) = exOk (db.get s) := by
  refine ⟨parse_quantity_norm s, parse_remainder_lower s, ?_, ?_⟩
  · unfold NutritionDB.existsItem
    rw [parse_quantity_norm s]
  · simp only [NutritionDB.get, parse_quantity_norm s]
    cases db.matchFood (parse_quantity s).2.2 with
    | none => rfl
    | some name => rfl

/-- C10: when two data rows share a canonical name and no later row
carries it, the loaded table maps that name to the record built from the
later row — the earlier duplicate is silently overwritten, not rejected
and not kept. -/
theorem spec_C10 (lines pre mid post : List String) (r1 r2 : String)
    (name : String) (rec1 rec2 : FoodRecord) (db : NutritionDB)
    (hsplit : lines.drop 2 = pre ++ [r1] ++ mid ++ [r2] ++ post)
    (h1 : rowParse r1 = .ok (some (name, rec1)))
    (h2 : rowParse r2 = .ok (some (name, rec2)))
    (hpost : ∀ l ∈ post, rowKey name l = none)
    (hload : NutritionDB.load lines = .ok db) :
    db.lookupName name = some rec2 := by
  unfold NutritionDB.load at hload
  cases hf : foldlExcept loadStep [] (lines.drop 2) with
  | error e => rw [hf] at hload; cases hload
  | ok items =>
    rw [hf] at hload
    injection hload with hload
    have hl := load_lookup name (lines.drop 2) [] items hf
    have hpostnone : lastRec name post = none := by
      unfold lastRec
      rw [List.findSome?_eq_none_iff]
      intro x hx
      exact hpost x (List.mem_reverse.mp hx)
    have hr2 : rowKey name r2 = some rec2 := by
      unfold rowKey
      rw [h2]
      simp
    have hlast : lastRec name (lines.drop 2) = some rec2 := by
      rw [hsplit, lastRec_append, hpostnone, lastRec_append, lastRec_single, hr2]
      rfl
    rw [hlast] at hl
    rw [← hload]
    exact hl

/-- C10 witness: `Apple` then `APPLE` rows load to a table holding only
the later record under the key `apple`. -/
theorem spec_C10_witness :
    NutritionDB.load linesDup = .ok dbDup ∧
    NutritionDB.lookupName dbDup "apple" = some ⟨12, 1, 0, 100, "g", 52⟩ := by
  have hload : NutritionDB.load linesDup = .ok dbDup := by decide
  refine ⟨hload, ?_⟩
  exact spec_C10 linesDup [] []
    [] "| 1 | Apple | 10 | 0.5 | 0 | 100 | g | 40 |" "| 2 | APPLE | 12 | 1 | 0 | 100 | g | 52 |"
    "apple" ⟨10, 1 / 2, 0, 100, "g", 40⟩ ⟨12, 1, 0, 100, "g", 52⟩ dbDup (by decide)
    (by decide) (by decide) (by intro l hl; cases hl) hload
